import Mathlib

/-!
Shallow embedding of `transformer_shard.py` (mesh-transformer-jax).

Tensors along a single axis are `List α`; a linear layer's weight matrix is a
list of rows indexed by the input dimension (so `hk.Linear`'s `y = x @ W + b`
is the `x`-weighted sum of rows plus the bias).  Per-shard quantities are
lists indexed by the shard axis; the collectives `pmean` / `psum` / `pmax`
over the shard axis become mean / sum / max over such lists.  Real-valued
analytic pieces (layer norm, softmax, exp/log of the loss protocol) live over
`ℝ`; the purely linear embedding-table claims are stated over a general
field; the precision-cast / training-state lifecycle uses rational-valued
dtype-tagged leaves.
-/

namespace MeshTransformer

/-- Pointwise product-sum of two vectors (a dot product). -/
def dotv {α : Type} [Field α] (a b : List α) : α :=
  (List.zipWith (fun x y => x * y) a b).sum

/-- Scalar times vector. -/
def smulv {α : Type} [Field α] (c : α) (v : List α) : List α :=
  v.map (fun a => c * a)

/-- Componentwise vector sum. -/
def vaddv {α : Type} [Field α] (a b : List α) : List α :=
  List.zipWith (fun x y => x + y) a b

/-- The `hk.Linear` forward pass `y = x @ W + b`, with `W` given as the list of
its rows (one row per input coordinate, each row of length `out_dim`). -/
def linearFwd {α : Type} [Field α] (W : List (List α)) (b : List α) (x : List α) : List α :=
  (List.zipWith smulv x W).foldr vaddv b

/-- The `hk.Linear(..., with_bias=False)` forward pass: the bias is the zero
vector of the output width. -/
def linearNB {α : Type} [Field α] (W : List (List α)) (out : ℕ) (x : List α) : List α :=
  linearFwd W (List.replicate out (0 : α)) x

/-- The row `(shard_index.reshape(1, -1) == x.reshape(-1, 1)).astype(dtype)`
for one token: `shard_index = arange(dps) + start`, so entry `i` is `1` iff
`start + i` equals the token id. -/
def onehotVec {α : Type} [Field α] (dps start tok : ℕ) : List α :=
  (List.range dps).map (fun i => if start + i = tok then (1 : α) else 0)

/-- Sum over the shard axis (`jax.lax.psum` of per-shard vectors), with the
output width `dim` fixing the shape of the zero accumulator. -/
def sumVecs {α : Type} [Field α] (dim : ℕ) (vs : List (List α)) : List α :=
  vs.foldr vaddv (List.replicate dim (0 : α))

/-- Mean over the shard axis (`jax.lax.pmean` of per-shard vectors). -/
def pmeanVecs {α : Type} [Field α] (dim : ℕ) (vs : List (List α)) : List α :=
  smulv (((vs.length : α))⁻¹) (sumVecs dim vs)

/-! ### EmbeddingShard -/

/-- One shard's body of `EmbeddingShard.__call__` for a single token:
`proj_out = self.proj(onehot)` where `proj = hk.Linear(out_dim)` (which has a
bias), the shard owning rows `[start, start + table.length)`. -/
def embedShardLocal {α : Type} [Field α] (table : List (List α)) (bias : List α)
    (start tok : ℕ) : List α :=
  linearFwd table bias (onehotVec table.length start tok)

/-- The per-shard outputs of `EmbeddingShard.__call__` before the reduce, the
shards listed in shard order, each owning the next `table.length` rows
(`shard_start_index = axis_index * dim_per_shard`). -/
def embedLocals {α : Type} [Field α] :
    List (List (List α) × List α) → ℕ → ℕ → List (List α)
  | [], _, _ => []
  | sh :: rest, start, tok =>
      embedShardLocal sh.1 sh.2 start tok :: embedLocals rest (start + sh.1.length) tok

/-- The value of `EmbeddingShard.__call__` after the final collective: the source returns
`jax.lax.pmean(proj_out, "shard")`, the mean over the shard axis. -/
def embeddingShardCall {α : Type} [Field α] (dim : ℕ)
    (shards : List (List (List α) × List α)) (tok : ℕ) : List α :=
  pmeanVecs dim (embedLocals shards 0 tok)

/-- The unsharded single-table embedding lookup: row `tok` of the
concatenation (in shard order) of the shards' row blocks. -/
def tableLookup {α : Type} [Field α] (shards : List (List (List α) × List α))
    (tok : ℕ) : List α :=
  (List.flatten (shards.map Prod.fst)).getD tok []

/-! ### Real-valued analytic pieces -/

/-- The layer norm `hk.LayerNorm(-1, True, True)`: normalize by mean and variance along the
last axis (ε = 1e-5, haiku's default), then scale and offset. -/
noncomputable def layerNorm (scale offset x : List ℝ) : List ℝ :=
  let μ : ℝ := x.sum / (x.length : ℝ)
  let v : ℝ := ((x.map (fun a => (a - μ) ^ 2)).sum) / (x.length : ℝ)
  List.zipWith (fun so a => so.1 * ((a - μ) / Real.sqrt (v + 1 / 100000)) + so.2)
    (scale.zip offset) x

/-- The softmax `jax.nn.softmax` along the last axis: `exp aᵢ / Σⱼ exp aⱼ` (the max-shift
the library performs for stability does not change the value). -/
noncomputable def softmaxRow (l : List ℝ) : List ℝ :=
  l.map (fun a => Real.exp a / (l.map Real.exp).sum)

/-- The nonlinearity `jax.nn.gelu` with its default tanh approximation. -/
noncomputable def geluApprox (a : ℝ) : ℝ :=
  (1 / 2) * a * (1 + Real.tanh (Real.sqrt (2 / Real.pi) * (a + (44715 / 1000000) * a ^ 3)))

/-! ### TransformerLayerShard -/

/-- Parameters of one `TransformerLayerShard` on one shard.  Weight matrices
are row-major as in `linearFwd`; `wq`/`wk`/`wv` map `dim → dim_per_shard`
(no bias), `wo` maps `dim_per_shard → dim` (no bias), the dense branch maps
`dim → 4·dim_per_shard → dim` (with biases). -/
structure LayerParams where
  lnScale : List ℝ
  lnOffset : List ℝ
  wq : List (List ℝ)
  wk : List (List ℝ)
  wv : List (List ℝ)
  wo : List (List ℝ)
  wDense : List (List ℝ)
  bDense : List ℝ
  wDenseO : List (List ℝ)
  bDenseO : List ℝ

/-- The `reshape((-1, heads_per_shard, dim_per_head))` of a projected vector:
head `h` gets coordinates `[h·dph, (h+1)·dph)`. -/
def headsOf (hps dph : ℕ) (v : List ℝ) : List (List ℝ) :=
  (List.range hps).map (fun h => (v.drop (h * dph)).take dph)

/-- The scaled attention logits of `TransformerLayerShard.__call__`:
`x = self.ln(x)`, `q`/`k` projections split into heads, then
`einsum("thd,Thd->htT", q, k) / sqrt(dim_per_head)`. -/
noncomputable def attentionLogits (p : LayerParams) (hps dph : ℕ)
    (xs : List (List ℝ)) : List (List (List ℝ)) :=
  let xn := xs.map (layerNorm p.lnScale p.lnOffset)
  let qs := xn.map (fun x => headsOf hps dph (linearNB p.wq (hps * dph) x))
  let ks := xn.map (fun x => headsOf hps dph (linearNB p.wk (hps * dph) x))
  (List.range hps).map (fun h =>
    qs.map (fun qt =>
      ks.map (fun kT => dotv (qt.getD h []) (kT.getD h []) / Real.sqrt (dph : ℝ))))

/-- The mask step of `TransformerLayerShard.__call__`, exactly as written in
the source:

    if mask is None:
        attention_logits += mask

When no mask is supplied the branch is taken and `+= None` raises a
`TypeError` (modelled as `none`); when a mask IS supplied the branch is
skipped, so the supplied mask is never added to the logits. -/
noncomputable def maskedAttentionLogits (p : LayerParams) (hps dph : ℕ)
    (xs : List (List ℝ)) (mask : Option (List (List ℝ))) :
    Option (List (List (List ℝ))) :=
  match mask with
  | none => none
  | some _ => some (attentionLogits p hps dph xs)

/-- The attention weights of `TransformerLayerShard.__call__`:
`jax.nn.softmax(attention_logits)` along the key axis, after the mask step. -/
noncomputable def attentionWeights (p : LayerParams) (hps dph : ℕ)
    (xs : List (List ℝ)) (mask : Option (List (List ℝ))) :
    Option (List (List (List ℝ))) :=
  (maskedAttentionLogits p hps dph xs mask).map (fun ls => ls.map (fun rows => rows.map softmaxRow))

/-- The dense-branch intermediate of `TransformerLayerShard.__call__` for one
position: in the source `x` is reassigned by `x = self.ln(x)` before
`dense_proj = self.dense_proj(x)`, so `dense_proj` is applied to the
layer-normalized input. -/
noncomputable def ffIntermediate (p : LayerParams) (x : List ℝ) : List ℝ :=
  linearFwd p.wDense p.bDense (layerNorm p.lnScale p.lnOffset x)

/-- Modelled from the spec claim's words (for comparison with
`ffIntermediate`): the expanded intermediate computed from the raw block
input, before layer normalization is applied. -/
noncomputable def ffIntermediateFromRaw (p : LayerParams) (x : List ℝ) : List ℝ :=
  linearFwd p.wDense p.bDense x

/-- The full dense branch for one position:
`dense_proj_o(gelu(dense_proj(ln(x))))`. -/
noncomputable def ffBranch (p : LayerParams) (x : List ℝ) : List ℝ :=
  linearFwd p.wDenseO p.bDenseO ((ffIntermediate p x).map geluApprox)

/-- The weighted value sum over the key-sequence axis for one head:
entry `Σ_T weights[T] • values[T]`. -/
noncomputable def weightedSumVals (dph : ℕ) (wrow : List ℝ) (vals : List (List ℝ)) : List ℝ :=
  (List.zipWith smulv wrow vals).foldr vaddv (List.replicate dph (0 : ℝ))

/-- One shard's body of `TransformerLayerShard.__call__` (the value before the
final `jax.lax.pmean(attn_out + dense_out, "shard")`): attention over the
shard's heads with the mask step as in the source, `o`-projection back to
`dim`, plus the dense branch. -/
noncomputable def transformerLayerLocal (p : LayerParams) (hps dph dim : ℕ)
    (xs : List (List ℝ)) (mask : Option (List (List ℝ))) :
    Option (List (List ℝ)) :=
  match attentionWeights p hps dph xs mask with
  | none => none
  | some w =>
    let xn := xs.map (layerNorm p.lnScale p.lnOffset)
    let vs := xn.map (fun x => headsOf hps dph (linearNB p.wv (hps * dph) x))
    some ((List.range xs.length).map (fun t =>
      let attnVec := List.flatten ((List.range hps).map (fun h =>
        weightedSumVals dph ((w.getD h []).getD t []) (vs.map (fun vT => vT.getD h []))))
      vaddv (linearNB p.wo dim attnVec) (ffBranch p (xs.getD t []))))

/-- The cross-shard combine of `TransformerLayerShard.__call__` at one
position: `jax.lax.pmean` of the per-shard local outputs. -/
noncomputable def transformerLayerReduce (dim : ℕ) (outs : List (List ℝ)) : List ℝ :=
  pmeanVecs dim outs

/-- The causal mask built by `CausalTransformerShard.eval`:
`mask = jnp.triu(jnp.zeros((n, n)) - 10e10, 1)`, i.e. `-1e11` strictly above
the diagonal and `0` elsewhere. -/
noncomputable def causalMask (n : ℕ) : List (List ℝ) :=
  (List.range n).map (fun i =>
    (List.range n).map (fun j => if i < j then -(100000000000 : ℝ) else 0))

/-! ### ProjectionShard -/

/-- Parameters of one `ProjectionShard` on one shard: layer-norm scale and
offset, and the `hk.Linear(dim_per_shard)` projection (rows indexed by the
hidden dimension, with bias). -/
structure ProjParams where
  lnScale : List ℝ
  lnOffset : List ℝ
  w : List (List ℝ)
  b : List ℝ

/-- The shard logits computed by `ProjectionShard.loss`: the source reads
`shard_logits = self.proj(x)` directly on the incoming activations (no
layer-norm call appears in `loss`). -/
noncomputable def projShardLogits (p : ProjParams) (x : List ℝ) : List ℝ :=
  linearFwd p.w p.b x

/-- The per-shard slice of `ProjectionShard.__call__` before the all-gather:
`x = self.ln(x); proj = self.proj(x)` — here the projection IS preceded by
the layer norm. -/
noncomputable def projCallLocal (p : ProjParams) (x : List ℝ) : List ℝ :=
  linearFwd p.w p.b (layerNorm p.lnScale p.lnOffset x)

/-- The `gt_onehot` of `ProjectionShard.loss` for one token:
`(shard_index.reshape(1, -1) == targets.reshape(-1, 1))` with
`shard_index = arange(dim_per_shard) + shard_start_index`. -/
noncomputable def gtOnehot (dps start target : ℕ) : List ℝ :=
  onehotVec dps start target

/-! ### The three-reduce loss protocol of `ProjectionShard.loss`

The shard axis is a `List (List ℝ)` of per-shard logit slices for one token;
`jax.lax.pmax` / `jax.lax.psum` become max / sum over that list.  The
`stop_gradient` wrappers in the source are identities on values. -/

/-- Max of a list of reals (`array.max()` of a nonempty array; `0` on the
empty list, which never arises under the stated hypotheses). -/
noncomputable def lmax : List ℝ → ℝ
  | [] => 0
  | a :: as => as.foldl max a

/-- One shard's `jnp.sum(jnp.exp(shard_logits - M), -1)`. -/
noncomputable def sumExpShift (l : List ℝ) (M : ℝ) : ℝ :=
  (l.map (fun a => Real.exp (a - M))).sum

/-- The gradient-stopped `jax.lax.pmax` of the per-shard local maxima: the
global max logit. -/
noncomputable def globalMax (shards : List (List ℝ)) : ℝ :=
  lmax (shards.map lmax)

/-- The `jax.lax.psum` of the per-shard `sum(exp(shifted))`: the global
partition function. -/
noncomputable def globalZ (shards : List (List ℝ)) (M : ℝ) : ℝ :=
  (shards.map (fun l => sumExpShift l M)).sum

/-- One shard's `jnp.sum(gt_onehot * logsoftmax, -1)` where
`logsoftmax = (logit - M) - logZ` and the shard owns global vocabulary
indices starting at `pos`; `t` is the target id. -/
noncomputable def onehotDotLogsoftmax : List ℝ → ℕ → ℕ → ℝ → ℝ → ℝ
  | [], _, _, _, _ => 0
  | a :: as, pos, t, M, logZ =>
      (if pos = t then (1 : ℝ) else 0) * ((a - M) - logZ)
        + onehotDotLogsoftmax as (pos + 1) t M logZ

/-- The final `jax.lax.psum(-sum(gt_onehot * logsoftmax, -1), "shard")`:
summing each shard's negated one-hot dot, shard `s` owning the next
`l.length` vocabulary indices. -/
noncomputable def lossPsum : List (List ℝ) → ℕ → ℕ → ℝ → ℝ → ℝ
  | [], _, _, _, _ => 0
  | l :: ls, start, t, M, logZ =>
      (-onehotDotLogsoftmax l start t M logZ) + lossPsum ls (start + l.length) t M logZ

/-- The per-token loss of `ProjectionShard.loss` after all three reduces
(`pmax` for the global max, `psum` for the partition function, `psum` for
the one-hot dot), as a function of the per-shard logit slices and target. -/
noncomputable def shardedLoss (shards : List (List ℝ)) (t : ℕ) : ℝ :=
  lossPsum shards 0 t (globalMax shards)
    (Real.log (globalZ shards (globalMax shards)))

/-- The naive single-device numerically stable log-softmax cross-entropy over
the concatenated full-vocabulary logits:
`-(logits[t] - max - log Σ exp(logits - max))`. -/
noncomputable def naiveLoss (logits : List ℝ) (t : ℕ) : ℝ :=
  -(logits.getD t 0 - lmax logits - Real.log (sumExpShift logits (lmax logits)))

/-- The whole `ProjectionShard.loss` assembled over the shard axis for one token: each
shard computes `shard_logits = self.proj(x)` on the shared activations, then
the three-reduce protocol runs on the slices. -/
noncomputable def projectionLoss (ps : List ProjParams) (x : List ℝ) (target : ℕ) : ℝ :=
  shardedLoss (ps.map (fun p => projShardLogits p x)) target

/-! ### Precision casts and the training-state lifecycle

A parameter-tree leaf is a rational value tagged with its dtype; `bf16` is a
strict subset of `f32` (casting `bf16 → f32` is exact, `f32 → bf16` rounds
to the coarser grid, modelled by flooring out the low 16 bits of scale). -/

/-- A parameter-tree leaf: a numeric array condensed to one value plus its
dtype tag. -/
inductive Leaf where
  | f32 (v : ℚ)
  | bf16 (v : ℚ)
  | i32 (v : ℤ)
deriving DecidableEq, Repr

/-- A parameter tree flattened to its list of leaves
(`jax.tree_map` acts leafwise, so the tree structure itself is inert). -/
abbrev PTree := List Leaf

/-- Rounding a wide value to the narrow grid: `bf16` keeps 16 fewer mantissa
bits than `f32`, modelled by flooring to a `1/65536`-spaced grid. -/
def truncBf16 (v : ℚ) : ℚ := ((Rat.floor (v * 65536) : ℤ) : ℚ) / 65536

/-- Leaf action of `to_bf16`: convert `f32` leaves, pass the rest through
(`x.astype(bf16) if x.dtype == f32 else x`). -/
def castLeafBf16 : Leaf → Leaf
  | .f32 v => .bf16 (truncBf16 v)
  | l => l

/-- Leaf action of `to_f32`: convert `bf16` leaves exactly, pass the rest
through (`x.astype(f32) if x.dtype == bf16 else x`). -/
def castLeafF32 : Leaf → Leaf
  | .bf16 v => .f32 v
  | l => l

/-- The cast `to_bf16(t) = jax.tree_map(cast-to-bf16, t)`. -/
def to_bf16 (t : PTree) : PTree := t.map castLeafBf16

/-- The cast `to_f32(t) = jax.tree_map(cast-to-f32, t)`. -/
def to_f32 (t : PTree) : PTree := t.map castLeafF32

/-- Leafwise addition, `jax.tree_multimap(lambda a, b: a + b, ...)`
(both trees have identical dtypes in every use in the source). -/
def leafAdd : Leaf → Leaf → Leaf
  | .f32 a, .f32 b => .f32 (a + b)
  | .bf16 a, .bf16 b => .bf16 (a + b)
  | .i32 a, .i32 b => .i32 (a + b)
  | a, _ => a

/-- The tree sum `jax.tree_multimap(lambda a, b: a + b, t, u)`. -/
def treeAdd (t u : PTree) : PTree := List.zipWith leafAdd t u

/-- The zeroed tree `jax.tree_map(lambda a: jnp.zeros_like(a), t)`. -/
def zerosLike (t : PTree) : PTree :=
  t.map (fun l => match l with
    | .f32 _ => .f32 0
    | .bf16 _ => .bf16 0
    | .i32 _ => .i32 0)

/-- Leafwise division by a scalar (`lambda a: a / n`). -/
def leafDivQ (n : ℚ) : Leaf → Leaf
  | .f32 v => .f32 (v / n)
  | .bf16 v => .bf16 (v / n)
  | .i32 v => .i32 v

/-- The scaled tree `jax.tree_map(lambda a: a / n, t)`. -/
def treeDiv (t : PTree) (n : ℚ) : PTree := t.map (leafDivQ n)

/-- Sum of a nonempty list of equal-shaped trees. -/
def sumTrees : List PTree → PTree
  | [] => []
  | g :: gs => gs.foldl treeAdd g

/-- The reduce `jax.lax.pmean(grad, "batch")`: the mean of the per-replica gradient
trees over the data axis. -/
def pmeanTrees (gs : List PTree) : PTree :=
  treeDiv (sumTrees gs) (gs.length : ℚ)

/-- The accelerator-resident training state
`{params, step, grad}` of the source. -/
structure TpuState where
  params : PTree
  step : ℕ
  grad : PTree
deriving DecidableEq, Repr

/-- The host-resident state `{params, opt_state}` of the source. -/
structure CpuState (O : Type) where
  params : PTree
  opt_state : O

/-- The pluggable optax optimizer: `init` builds optimizer state from
parameters; `update` maps a gradient and optimizer state to parameter
updates and new optimizer state. -/
structure Optimizer (O : Type) where
  init : PTree → O
  update : PTree → O → PTree × O

/-- A concrete pluggable optimizer used to instantiate the lifecycle theorems
on closed inputs: plain gradient descent whose update is the (scaled)
gradient itself and whose state is trivial. -/
def optId : Optimizer Unit :=
  { init := fun _ => (), update := fun g o => (g, o) }

/-- The xmapped `train` of `CausalTransformer.__init__`, over the data axis:
each replica computes `value_and_grad(train_loss)(to_bf16(params), ctx, tgt)`
(the autodiff result is the supplied oracle `vg`), the gradients are
`pmean`-ed over the batch axis, and the new state keeps the params, bumps
the step, and adds the averaged gradient into the accumulator. -/
def trainStep {C T V : Type} (vg : PTree → C → T → V × PTree)
    (st : TpuState) (ctxs : List C) (tgts : List T) : List V × TpuState :=
  let results := List.zipWith (fun c t => vg (to_bf16 st.params) c t) ctxs tgts
  let gmean := pmeanTrees (results.map Prod.snd)
  (results.map Prod.fst,
    { params := st.params
      step := st.step + 1
      grad := treeAdd st.grad gmean })

/-- The jitted `cpu_update_jit` of `CausalTransformer.update`.  Note the source's body
begins `grad = self.tpu_state["grad"]`: it reads the gradient from the
enclosing object's field (here the explicit `selfGrad` argument capturing
`self.tpu_state["grad"]`), not from its `tpu_state` parameter `tpuArg`,
which is never read. -/
def cpu_update_jit {O : Type} (opt : Optimizer O) (selfGrad : PTree)
    (cpu : CpuState O) (tpuArg : TpuState) (n : ℚ) : CpuState O :=
  let grad := treeDiv selfGrad n
  let r := opt.update grad cpu.opt_state
  { opt_state := r.2, params := treeAdd cpu.params r.1 }

/-- The resync `set_tpu_state` of `CausalTransformer.__init__`: write the narrow cast of
the new host params into the accelerator state, keep the step counter, zero
the gradient accumulator. -/
def set_tpu_state (newParams : PTree) (old : TpuState) : TpuState :=
  { params := to_bf16 newParams
    step := old.step
    grad := zerosLike old.grad }

/-- The method `CausalTransformer.update(grad_acc_no)`: run `cpu_update_jit` (which
reads `self.tpu_state["grad"]`) to get the new host state, then resync the
accelerator state via `set_tpu_state`. -/
def updateStep {O : Type} (opt : Optimizer O) (cpu : CpuState O)
    (tpu : TpuState) (n : ℚ) : CpuState O × TpuState :=
  let cpu' := cpu_update_jit opt tpu.grad cpu tpu n
  (cpu', set_tpu_state cpu'.params tpu)

/-- The accelerator state built by `init` in `CausalTransformer.__init__`
from the haiku-initialized parameters `p0`: zero step, zeroed accumulator. -/
def initTpu (p0 : PTree) : TpuState :=
  { params := p0, step := 0, grad := zerosLike p0 }

/-- The host state built by `cpu_init_jit`: the wide cast of the freshly
initialized accelerator params, plus the optimizer state over them. -/
def initCpu {O : Type} (opt : Optimizer O) (p0 : PTree) : CpuState O :=
  { params := to_f32 p0, opt_state := opt.init (to_f32 p0) }

/-- A tree is narrow-precision when the narrow cast of its wide cast is
itself (every leaf already lies on the `bf16` grid and none is `f32`). -/
def isNarrow (p : PTree) : Prop := to_bf16 (to_f32 p) = p

instance (p : PTree) : Decidable (isNarrow p) := by
  unfold isNarrow; infer_instance

/-- The reachable states of the training lifecycle: the freshly initialized
pair, then closed under `train` and `update` calls.  Modelled from the spec
for the initial state: the data model (§3) declares the accelerator-resident
`params` reduced-precision (in the source this dtype is fixed by the haiku
initialization, outside this file's scope), so the `init` case carries the
corresponding `isNarrow` premise. -/
inductive Reach {O C T V : Type} (opt : Optimizer O) : CpuState O × TpuState → Prop where
  | init (p0 : PTree) (h : isNarrow p0) : Reach opt (initCpu opt p0, initTpu p0)
  | train (st : CpuState O × TpuState) (vg : PTree → C → T → V × PTree)
      (ctxs : List C) (tgts : List T) (hst : @Reach O C T V opt st) :
      Reach opt (st.1, (trainStep vg st.2 ctxs tgts).2)
  | update (st : CpuState O × TpuState) (n : ℚ) (hst : @Reach O C T V opt st) :
      Reach opt (updateStep opt st.1 st.2 n)

/-! ## Theorems -/

/-- The executable `Rat.floor` of Batteries agrees with the floor of the
order structure. -/
theorem ratFloor_eq_intFloor (q : ℚ) : Rat.floor q = ⌊q⌋ := by
  rw [Rat.floor_def', Rat.floor_def]

/-- Leafwise narrow cast is idempotent. -/
theorem castLeafBf16_castLeafBf16 (l : Leaf) :
    castLeafBf16 (castLeafBf16 l) = castLeafBf16 l := by
  cases l <;> rfl

/-- Claim C9: the precision casts leave leaves already in the target format
unchanged (`to_bf16` is the identity on narrow-precision leaves, `to_f32` is
the identity on wide-precision leaves), and the narrow cast is idempotent:
applying `to_bf16` twice equals applying it once. -/
theorem c9_precision_casts :
    (∀ vs : List ℚ, to_bf16 (vs.map Leaf.bf16) = vs.map Leaf.bf16)
      ∧ (∀ vs : List ℚ, to_f32 (vs.map Leaf.f32) = vs.map Leaf.f32)
      ∧ (∀ t : PTree, to_bf16 (to_bf16 t) = to_bf16 t) := by
  refine ⟨?_, ?_, ?_⟩
  · intro vs
    induction vs with
    | nil => rfl
    | cons v vs ih => simpa [to_bf16, castLeafBf16] using ih
  · intro vs
    induction vs with
    | nil => rfl
    | cons v vs ih => simpa [to_f32, castLeafF32] using ih
  · intro t
    simp only [to_bf16, List.map_map]
    exact List.map_congr_left (fun l _ => castLeafBf16_castLeafBf16 l)

/-- Claim C10: the host-side `cpu_update_jit` never reads its `tpu_state`
parameter — with the captured gradient, the host state and the accumulation
count held fixed, any two accelerator states passed as the parameter produce
the identical new host state. -/
theorem c10_update_independent_of_tpu_state {O : Type} (opt : Optimizer O)
    (selfGrad : PTree) (cpu : CpuState O) (n : ℚ) (t1 t2 : TpuState) :
    cpu_update_jit opt selfGrad cpu t1 n = cpu_update_jit opt selfGrad cpu t2 n := rfl

/-- Claim C6: one `train` call returns the per-replica loss values, keeps the
params unchanged, increments the step counter by 1, and adds (does not
overwrite) the batch-axis mean of the per-replica gradients into the
gradient accumulator. -/
theorem c6_train_step {C T V : Type} (vg : PTree → C → T → V × PTree)
    (st : TpuState) (ctxs : List C) (tgts : List T) :
    (trainStep vg st ctxs tgts).2.params = st.params
      ∧ (trainStep vg st ctxs tgts).2.step = st.step + 1
      ∧ (trainStep vg st ctxs tgts).2.grad
          = treeAdd st.grad
              (pmeanTrees ((List.zipWith (fun c t => vg (to_bf16 st.params) c t) ctxs tgts).map
                Prod.snd))
      ∧ (trainStep vg st ctxs tgts).1
          = (List.zipWith (fun c t => vg (to_bf16 st.params) c t) ctxs tgts).map Prod.fst :=
  ⟨rfl, rfl, rfl, rfl⟩

/-- Claim C7: `update(n)` feeds the `1/n`-scaled accumulated gradient to the
optimizer against the wide-precision host parameters, writes the narrow cast
of the new host parameters into the accelerator state, zeroes the
accelerator gradient accumulator, and leaves the accelerator step counter
unchanged. -/
theorem c7_update_step {O : Type} (opt : Optimizer O) (cpu : CpuState O)
    (tpu : TpuState) (n : ℕ) (hn : 1 ≤ n) :
    ((updateStep opt cpu tpu (n : ℚ)).1.opt_state
        = (opt.update (treeDiv tpu.grad (n : ℚ)) cpu.opt_state).2)
      ∧ ((updateStep opt cpu tpu (n : ℚ)).1.params
        = treeAdd cpu.params (opt.update (treeDiv tpu.grad (n : ℚ)) cpu.opt_state).1)
      ∧ (updateStep opt cpu tpu (n : ℚ)).2.params
          = to_bf16 (updateStep opt cpu tpu (n : ℚ)).1.params
      ∧ (updateStep opt cpu tpu (n : ℚ)).2.grad = zerosLike tpu.grad
      ∧ (updateStep opt cpu tpu (n : ℚ)).2.step = tpu.step :=
  ⟨rfl, rfl, rfl, rfl, rfl⟩

/-- Claim C7, witness: the theorem instantiated at a concrete optimizer,
host state, accelerator state and accumulation count 2. -/
theorem c7_update_step_witness :
    (1 : ℕ) ≤ 2
      ∧ (((updateStep optId ⟨[Leaf.f32 2], ()⟩ ⟨[Leaf.bf16 1], 3, [Leaf.f32 4]⟩ ((2 : ℕ) : ℚ)).1.opt_state
            = (optId.update (treeDiv [Leaf.f32 4] ((2 : ℕ) : ℚ)) ()).2)
          ∧ (((updateStep optId ⟨[Leaf.f32 2], ()⟩ ⟨[Leaf.bf16 1], 3, [Leaf.f32 4]⟩ ((2 : ℕ) : ℚ)).1.params
            = treeAdd [Leaf.f32 2] (optId.update (treeDiv [Leaf.f32 4] ((2 : ℕ) : ℚ)) ()).1))
          ∧ (updateStep optId ⟨[Leaf.f32 2], ()⟩ ⟨[Leaf.bf16 1], 3, [Leaf.f32 4]⟩ ((2 : ℕ) : ℚ)).2.params
              = to_bf16 (updateStep optId ⟨[Leaf.f32 2], ()⟩ ⟨[Leaf.bf16 1], 3, [Leaf.f32 4]⟩ ((2 : ℕ) : ℚ)).1.params
          ∧ (updateStep optId ⟨[Leaf.f32 2], ()⟩ ⟨[Leaf.bf16 1], 3, [Leaf.f32 4]⟩ ((2 : ℕ) : ℚ)).2.grad
              = zerosLike [Leaf.f32 4]
          ∧ (updateStep optId ⟨[Leaf.f32 2], ()⟩ ⟨[Leaf.bf16 1], 3, [Leaf.f32 4]⟩ ((2 : ℕ) : ℚ)).2.step = 3) :=
  ⟨by decide, c7_update_step optId ⟨[Leaf.f32 2], ()⟩ ⟨[Leaf.bf16 1], 3, [Leaf.f32 4]⟩ 2 (by decide)⟩

/-- Claim C8: in every reachable state of the training lifecycle the
accelerator-resident params tree is the narrow-precision cast of some
historical host-resident params tree, and immediately after every `update`
call the accelerator params equal the narrow cast of the current host
params (exact resynchronization). -/
theorem c8_narrow_cast_invariant {O C T V : Type} (opt : Optimizer O) :
    (∀ st : CpuState O × TpuState, @Reach O C T V opt st →
        ∃ hist : PTree, st.2.params = to_bf16 hist)
      ∧ (∀ (cpu : CpuState O) (tpu : TpuState) (n : ℚ),
          (updateStep opt cpu tpu n).2.params = to_bf16 (updateStep opt cpu tpu n).1.params) := by
  constructor
  · intro st h
    induction h with
    | init p0 h0 => exact ⟨to_f32 p0, h0.symm⟩
    | train st vg ctxs tgts hst ih => exact ih
    | update st n hst => exact ⟨(cpu_update_jit opt st.2.grad st.1 st.2 n).params, rfl⟩
  · intro cpu tpu n
    rfl

/-- Claim C8, witness: the invariant applied to the concrete freshly
initialized state over a one-leaf narrow parameter tree. -/
theorem c8_narrow_cast_invariant_witness :
    ∃ hist : PTree, (initTpu [Leaf.bf16 1]).params = to_bf16 hist :=
  (@c8_narrow_cast_invariant Unit Unit Unit Unit optId).1
    (initCpu optId [Leaf.bf16 1], initTpu [Leaf.bf16 1])
    (Reach.init [Leaf.bf16 1]
      (by norm_num [isNarrow, to_bf16, to_f32, castLeafBf16, castLeafF32, truncBf16,
        ratFloor_eq_intFloor]))

/-! ### Embedding lemmas (C3) -/

/-- Scaling by `1` is the identity. -/
theorem smulv_one {α : Type} [Field α] (v : List α) : smulv (1 : α) v = v := by
  simp [smulv]

/-- Scaling by `0` gives the zero vector of the same length. -/
theorem smulv_zero {α : Type} [Field α] (v : List α) :
    smulv (0 : α) v = List.replicate v.length 0 := by
  induction v with
  | nil => rfl
  | cons a v ih => simpa [smulv, List.replicate_succ] using ih

/-- Adding the zero vector of matching length on the right is the identity. -/
theorem vaddv_replicate_right {α : Type} [Field α] (v : List α) (n : ℕ)
    (h : v.length = n) : vaddv v (List.replicate n 0) = v := by
  induction v generalizing n with
  | nil => subst h; rfl
  | cons a v ih =>
    subst h
    simpa [vaddv, List.replicate_succ] using ih v.length rfl

/-- Adding the zero vector of matching length on the left is the identity. -/
theorem vaddv_replicate_left {α : Type} [Field α] (v : List α) (n : ℕ)
    (h : v.length = n) : vaddv (List.replicate n 0) v = v := by
  induction v generalizing n with
  | nil => subst h; rfl
  | cons a v ih =>
    subst h
    simpa [vaddv, List.replicate_succ] using ih v.length rfl

/-- One step of `linearFwd` on cons cells. -/
theorem linearFwd_cons {α : Type} [Field α] (c : α) (x : List α) (r : List α)
    (W : List (List α)) (b : List α) :
    linearFwd (r :: W) b (c :: x) = vaddv (smulv c r) (linearFwd W b x) := rfl

/-- The one-hot indicator row unfolds one entry at a time. -/
theorem onehotVec_succ {α : Type} [Field α] (n start tok : ℕ) :
    onehotVec (n + 1) start tok
      = (if start = tok then (1 : α) else 0) :: onehotVec n (start + 1) tok := by
  unfold onehotVec
  rw [List.range_succ_eq_map]
  simp only [List.map_cons, List.map_map, Nat.add_zero, Function.comp]
  congr 1
  apply List.map_congr_left
  intro i _
  simp only [Function.comp_apply, Nat.succ_eq_add_one]
  have h : start + (i + 1) = start + 1 + i := by omega
  rw [h]

/-- A `linearFwd` against the all-zero bias over rows of width `dim` has
width `dim`. -/
theorem linearFwd_length {α : Type} [Field α] (dim : ℕ) :
    ∀ (W : List (List α)) (x : List α), (∀ r ∈ W, r.length = dim) →
      (linearFwd W (List.replicate dim 0) x).length = dim := by
  intro W
  induction W with
  | nil => intro x _; cases x <;> simp [linearFwd]
  | cons r rs ih =>
    intro x hr
    cases x with
    | nil => simp [linearFwd]
    | cons c cs =>
      rw [linearFwd_cons]
      simp [vaddv, smulv, hr r (List.mem_cons_self r rs),
        ih cs (fun q hq => hr q (List.mem_cons_of_mem r hq))]

/-- Entries of a list of `dim`-wide rows fetched with `getD` are `dim`-wide. -/
theorem getD_rows_length {α : Type} (l : List (List α)) (dim i : ℕ)
    (h : ∀ r ∈ l, r.length = dim) (hi : i < l.length) :
    (l.getD i []).length = dim := by
  rw [List.getD_eq_getElem l [] hi]
  exact h _ (List.getElem_mem hi)

/-- Projecting a one-hot indicator through a zero-bias linear map selects the
owned row when the token lies in the shard's range and the zero vector
otherwise. -/
theorem linearFwd_onehot {α : Type} [Field α] (dim : ℕ) :
    ∀ (table : List (List α)) (start tok : ℕ), (∀ r ∈ table, r.length = dim) →
      linearFwd table (List.replicate dim 0) (onehotVec table.length start tok)
        = if start ≤ tok ∧ tok < start + table.length
            then table.getD (tok - start) []
            else List.replicate dim (0 : α) := by
  intro table
  induction table with
  | nil =>
    intro start tok _
    rw [if_neg (by simp only [List.length_nil]; omega)]
    rfl
  | cons r rs ih =>
    intro start tok hrows
    have hr : r.length = dim := hrows r (List.mem_cons_self r rs)
    have hrs : ∀ q ∈ rs, q.length = dim := fun q hq => hrows q (List.mem_cons_of_mem r hq)
    rw [show (r :: rs).length = rs.length + 1 from rfl, onehotVec_succ, linearFwd_cons]
    by_cases hst : start = tok
    · subst hst
      rw [if_pos rfl, smulv_one]
      have htail := ih (start + 1) start hrs
      rw [if_neg (by omega)] at htail
      rw [htail, vaddv_replicate_right r dim hr, if_pos (by omega)]
      simp
    · rw [if_neg hst, smulv_zero, hr,
        vaddv_replicate_left _ dim (linearFwd_length dim rs _ hrs),
        ih (start + 1) tok hrs]
      by_cases h2 : start + 1 ≤ tok ∧ tok < start + 1 + rs.length
      · rw [if_pos h2, if_pos (by omega)]
        have h3 : tok - start = (tok - (start + 1)) + 1 := by omega
        rw [h3, List.getD_cons_succ]
      · rw [if_neg h2, if_neg (by omega)]

/-- Rows of the concatenated shard tables are `dim`-wide. -/
theorem flatten_rows_length {α : Type} (dim : ℕ)
    (rest : List (List (List α) × List α))
    (h : ∀ q ∈ rest, ∀ r ∈ q.1, r.length = dim) :
    ∀ r ∈ List.flatten (rest.map Prod.fst), r.length = dim := by
  intro r hr
  rw [List.mem_flatten] at hr
  obtain ⟨l, hl, hrl⟩ := hr
  rw [List.mem_map] at hl
  obtain ⟨q, hq, rfl⟩ := hl
  exact h q hq r hrl

/-- One per-shard local output per shard. -/
theorem embedLocals_length {α : Type} [Field α] :
    ∀ (shards : List (List (List α) × List α)) (start tok : ℕ),
      (embedLocals shards start tok).length = shards.length := by
  intro shards
  induction shards with
  | nil => intro start tok; rfl
  | cons sh rest ih => intro start tok; simp [embedLocals, ih]

/-- The shard-axis sum of the per-shard embedding partials equals the
concatenated-table row when the token is owned by some shard, pointing each
shard at its cumulative row offset. -/
theorem sumVecs_embedLocals {α : Type} [Field α] (dim : ℕ) :
    ∀ (shards : List (List (List α) × List α)) (start tok : ℕ),
      (∀ sh ∈ shards, ∀ r ∈ sh.1, r.length = dim) →
      (∀ sh ∈ shards, sh.2 = List.replicate dim 0) →
      sumVecs dim (embedLocals shards start tok)
        = if start ≤ tok ∧ tok < start + (List.flatten (shards.map Prod.fst)).length
            then (List.flatten (shards.map Prod.fst)).getD (tok - start) []
            else List.replicate dim (0 : α) := by
  intro shards
  induction shards with
  | nil =>
    intro start tok _ _
    simp only [List.map_nil, List.flatten_nil, List.length_nil]
    rw [if_neg (by omega)]
    rfl
  | cons sh rest ih =>
    intro start tok hrows hb
    have hsh : ∀ r ∈ sh.1, r.length = dim := hrows sh (List.mem_cons_self sh rest)
    have hrest1 : ∀ q ∈ rest, ∀ r ∈ q.1, r.length = dim :=
      fun q hq => hrows q (List.mem_cons_of_mem sh hq)
    have hrest2 : ∀ q ∈ rest, q.2 = List.replicate dim 0 :=
      fun q hq => hb q (List.mem_cons_of_mem sh hq)
    have hb1 : sh.2 = List.replicate dim 0 := hb sh (List.mem_cons_self sh rest)
    have hstep : sumVecs dim (embedLocals (sh :: rest) start tok)
        = vaddv (embedShardLocal sh.1 sh.2 start tok)
            (sumVecs dim (embedLocals rest (start + sh.1.length) tok)) := rfl
    rw [hstep, hb1,
      show embedShardLocal sh.1 (List.replicate dim 0) start tok
        = linearFwd sh.1 (List.replicate dim 0) (onehotVec sh.1.length start tok) from rfl,
      linearFwd_onehot dim sh.1 start tok hsh,
      ih (start + sh.1.length) tok hrest1 hrest2]
    simp only [List.map_cons, List.flatten_cons, List.length_append]
    by_cases hA : start ≤ tok ∧ tok < start + sh.1.length
    · rw [if_pos hA, if_neg (by omega),
        vaddv_replicate_right _ dim (getD_rows_length sh.1 dim _ hsh (by omega)),
        if_pos (by omega), List.getD_append _ _ _ _ (by omega)]
    · by_cases hB : start + sh.1.length ≤ tok
          ∧ tok < start + sh.1.length + (List.flatten (rest.map Prod.fst)).length
      · rw [if_neg hA, if_pos hB,
          vaddv_replicate_left _ dim
            (getD_rows_length _ dim _ (flatten_rows_length dim rest hrest1) (by omega)),
          if_pos (by omega), List.getD_append_right _ _ _ _ (by omega),
          show tok - start - sh.1.length = tok - (start + sh.1.length) from by omega]
      · rw [if_neg hA, if_neg hB, if_neg (by omega),
          vaddv_replicate_left _ dim (by simp)]

/-- Claim C3, counterexample to the claim as stated: with a nonzero learned
projection bias a shard's partial for a token outside its owned range is the
bias, not zero; and even with zero biases the `pmean` combine returns the
unsharded lookup divided by the shard count (here 2 shards turn the lookup
row `[1]` into `[1/2]`), not the lookup itself. -/
theorem c3_embedding_counterexample :
    (embedShardLocal [[(3 : ℚ)]] [5] 1 0 ≠ [0])
      ∧ embeddingShardCall 1 [([[(1 : ℚ)]], [0]), ([[3]], [0])] 0 = [1 / 2]
      ∧ tableLookup [([[(1 : ℚ)]], [0]), ([[3]], [0])] 0 = [1]
      ∧ ([(1 : ℚ) / 2] ≠ [1]) := by
  refine ⟨?_, ?_, ?_, ?_⟩ <;>
    norm_num [embedShardLocal, embeddingShardCall, pmeanVecs, sumVecs, embedLocals,
      tableLookup, linearFwd, onehotVec, smulv, vaddv, List.range_succ]

/-- Claim C3, amended: with zero projection biases each shard's partial
activation is the zero vector whenever the token falls outside the shard's
owned row range, and the average-reduce of the per-shard partials equals the
unsharded single-table lookup divided by the shard count (so the sum-reduce,
not the average, reconstructs it exactly); for shard_count = 1 the sharded
embedding reduces to the plain table lookup. -/
theorem c3_embedding_amended {α : Type} [Field α] (dim : ℕ)
    (shards : List (List (List α) × List α)) (tok : ℕ)
    (hrows : ∀ sh ∈ shards, ∀ r ∈ sh.1, r.length = dim)
    (hb : ∀ sh ∈ shards, sh.2 = List.replicate dim 0)
    (htok : tok < (List.flatten (shards.map Prod.fst)).length) :
    (∀ (table : List (List α)) (start : ℕ), (∀ r ∈ table, r.length = dim) →
        ¬(start ≤ tok ∧ tok < start + table.length) →
        embedShardLocal table (List.replicate dim 0) start tok = List.replicate dim 0)
      ∧ embeddingShardCall dim shards tok
          = smulv (((shards.length : ℕ) : α))⁻¹ (tableLookup shards tok)
      ∧ (shards.length = 1 → embeddingShardCall dim shards tok = tableLookup shards tok) := by
  have hsum : sumVecs dim (embedLocals shards 0 tok) = tableLookup shards tok := by
    rw [sumVecs_embedLocals dim shards 0 tok hrows hb, if_pos ⟨Nat.zero_le _, by omega⟩]
    simp [tableLookup]
  refine ⟨?_, ?_, ?_⟩
  · intro table start htab hout
    rw [show embedShardLocal table (List.replicate dim 0) start tok
        = linearFwd table (List.replicate dim 0) (onehotVec table.length start tok) from rfl,
      linearFwd_onehot dim table start tok htab, if_neg hout]
  · simp only [embeddingShardCall, pmeanVecs, embedLocals_length, hsum]
  · intro h1
    simp only [embeddingShardCall, pmeanVecs, embedLocals_length, hsum, h1]
    simp [smulv_one]

/-- Claim C3, witness: the amended theorem at two one-row shards holding rows
`[2]` and `[7]` with zero biases, token 1. -/
theorem c3_embedding_amended_witness :
    (∀ sh ∈ [([[(2 : ℚ)]], [0]), ([[7]], [0])], ∀ r ∈ sh.1, r.length = 1)
      ∧ (∀ sh ∈ [([[(2 : ℚ)]], [0]), ([[7]], [0])], sh.2 = List.replicate 1 0)
      ∧ 1 < (List.flatten ([([[(2 : ℚ)]], [0]), ([[7]], [0])].map Prod.fst)).length
      ∧ ((∀ (table : List (List ℚ)) (start : ℕ), (∀ r ∈ table, r.length = 1) →
            ¬(start ≤ 1 ∧ 1 < start + table.length) →
            embedShardLocal table (List.replicate 1 0) start 1 = List.replicate 1 0)
          ∧ embeddingShardCall 1 [([[(2 : ℚ)]], [0]), ([[7]], [0])] 1
              = smulv ((([([[(2 : ℚ)]], [0]), ([[7]], [0])].length : ℕ) : ℚ))⁻¹
                  (tableLookup [([[(2 : ℚ)]], [0]), ([[7]], [0])] 1)
          ∧ ([([[(2 : ℚ)]], [0]), ([[7]], [0])].length = 1 →
              embeddingShardCall 1 [([[(2 : ℚ)]], [0]), ([[7]], [0])] 1
                = tableLookup [([[(2 : ℚ)]], [0]), ([[7]], [0])] 1)) :=
  ⟨by decide, by decide, by decide,
    c3_embedding_amended 1 [([[(2 : ℚ)]], [0]), ([[7]], [0])] 1
      (by decide) (by decide) (by decide)⟩

/-! ### Loss-protocol lemmas (C2) -/

/-- Folding `max` commutes with an outer `max`. -/
theorem foldl_max_comm (m b : ℝ) (bs : List ℝ) :
    List.foldl max (max m b) bs = max m (List.foldl max b bs) := by
  induction bs generalizing b with
  | nil => rfl
  | cons c cs ih =>
    simp only [List.foldl_cons]
    rw [max_assoc, ih (max b c)]

/-- The `lmax` of a cons with a nonempty tail. -/
theorem lmax_cons_of_ne (x : ℝ) (xs : List ℝ) (h : xs ≠ []) :
    lmax (x :: xs) = max x (lmax xs) := by
  cases xs with
  | nil => exact absurd rfl h
  | cons b bs =>
    simp only [lmax, List.foldl_cons]
    exact foldl_max_comm x b bs

/-- The `lmax` distributes over the concatenation of nonempty lists. -/
theorem lmax_append (l1 l2 : List ℝ) (h1 : l1 ≠ []) (h2 : l2 ≠ []) :
    lmax (l1 ++ l2) = max (lmax l1) (lmax l2) := by
  cases l1 with
  | nil => exact absurd rfl h1
  | cons a as =>
    cases l2 with
    | nil => exact absurd rfl h2
    | cons b bs =>
      simp only [List.cons_append, lmax]
      rw [List.foldl_append, List.foldl_cons]
      exact foldl_max_comm _ b bs

/-- The concatenation of a nonempty family of nonempty slices is nonempty. -/
theorem flatten_ne_nil (shards : List (List ℝ)) (hne : shards ≠ [])
    (hall : ∀ l ∈ shards, l ≠ []) : List.flatten shards ≠ [] := by
  cases shards with
  | nil => exact absurd rfl hne
  | cons l rest =>
    intro hf
    rw [List.flatten_eq_nil_iff] at hf
    exact hall l (List.mem_cons_self l rest) (hf l (List.mem_cons_self l rest))

/-- The `pmax` of the per-shard maxima is the max over the concatenated
logits. -/
theorem globalMax_eq : ∀ (shards : List (List ℝ)), shards ≠ [] →
    (∀ l ∈ shards, l ≠ []) → globalMax shards = lmax (List.flatten shards) := by
  intro shards
  induction shards with
  | nil => intro h _; exact absurd rfl h
  | cons l rest ih =>
    intro _ hall
    cases rest with
    | nil => simp [globalMax, lmax]
    | cons l2 rest2 =>
      have hl : l ≠ [] := hall l (List.mem_cons_self l _)
      have hrest : ∀ q ∈ l2 :: rest2, q ≠ [] :=
        fun q hq => hall q (List.mem_cons_of_mem l hq)
      have hrestne : (l2 :: rest2 : List (List ℝ)) ≠ [] := by simp
      have hfl : List.flatten (l2 :: rest2) ≠ [] := flatten_ne_nil _ hrestne hrest
      have h1 : globalMax (l :: l2 :: rest2) = max (lmax l) (globalMax (l2 :: rest2)) := by
        simp only [globalMax, List.map_cons]
        exact lmax_cons_of_ne _ _ (by simp)
      rw [h1, ih hrestne hrest,
        show (List.flatten (l :: l2 :: rest2) : List ℝ) = l ++ List.flatten (l2 :: rest2)
          from rfl,
        lmax_append _ _ hl hfl]

/-- The `psum` of the per-shard `sum(exp(shifted))` is the partition function
over the concatenated logits. -/
theorem globalZ_eq : ∀ (shards : List (List ℝ)) (M : ℝ),
    globalZ shards M = sumExpShift (List.flatten shards) M := by
  intro shards
  induction shards with
  | nil => intro M; rfl
  | cons l rest ih =>
    intro M
    have h := ih M
    simp only [globalZ, sumExpShift, List.map_cons, List.sum_cons, List.flatten_cons,
      List.map_append, List.sum_append] at h ⊢
    rw [h]

/-- The one-hot dot over a concatenation splits at the offset boundary. -/
theorem onehotDot_append : ∀ (l1 l2 : List ℝ) (pos t : ℕ) (M logZ : ℝ),
    onehotDotLogsoftmax (l1 ++ l2) pos t M logZ
      = onehotDotLogsoftmax l1 pos t M logZ
          + onehotDotLogsoftmax l2 (pos + l1.length) t M logZ := by
  intro l1
  induction l1 with
  | nil => intro l2 pos t M logZ; simp [onehotDotLogsoftmax]
  | cons a as ih =>
    intro l2 pos t M logZ
    simp only [List.cons_append, onehotDotLogsoftmax, List.length_cons, List.append_eq]
    rw [ih l2 (pos + 1) t M logZ,
      show pos + 1 + as.length = pos + (as.length + 1) from by omega]
    ring

/-- The one-hot dot vanishes left of the target. -/
theorem onehotDot_of_lt : ∀ (l : List ℝ) (pos t : ℕ) (M logZ : ℝ), t < pos →
    onehotDotLogsoftmax l pos t M logZ = 0 := by
  intro l
  induction l with
  | nil => intro pos t M logZ _; rfl
  | cons a as ih =>
    intro pos t M logZ h
    simp only [onehotDotLogsoftmax]
    rw [if_neg (by omega), ih (pos + 1) t M logZ (by omega)]
    ring

/-- The one-hot dot selects the target's log-softmax value when the target
lies in range and is `0` otherwise. -/
theorem onehotDot_eq : ∀ (l : List ℝ) (pos t : ℕ) (M logZ : ℝ),
    onehotDotLogsoftmax l pos t M logZ
      = if pos ≤ t ∧ t < pos + l.length
          then (l.getD (t - pos) 0 - M) - logZ
          else 0 := by
  intro l
  induction l with
  | nil =>
    intro pos t M logZ
    rw [if_neg (by simp only [List.length_nil]; omega)]
    rfl
  | cons a as ih =>
    intro pos t M logZ
    simp only [onehotDotLogsoftmax, List.length_cons]
    by_cases hpt : pos = t
    · subst hpt
      rw [if_pos rfl, onehotDot_of_lt as (pos + 1) pos M logZ (by omega), if_pos (by omega)]
      simp
    · rw [if_neg hpt, ih (pos + 1) t M logZ]
      by_cases h2 : pos + 1 ≤ t ∧ t < pos + 1 + as.length
      · rw [if_pos h2, if_pos (by omega),
          show t - pos = (t - (pos + 1)) + 1 from by omega, List.getD_cons_succ]
        ring
      · rw [if_neg h2, if_neg (by omega)]
        ring

/-- The final `psum` of per-shard negated one-hot dots is the negated one-hot
dot over the concatenated logits. -/
theorem lossPsum_eq : ∀ (shards : List (List ℝ)) (start t : ℕ) (M logZ : ℝ),
    lossPsum shards start t M logZ
      = -onehotDotLogsoftmax (List.flatten shards) start t M logZ := by
  intro shards
  induction shards with
  | nil => intro start t M logZ; simp [lossPsum, onehotDotLogsoftmax]
  | cons l rest ih =>
    intro start t M logZ
    simp only [lossPsum, List.flatten_cons]
    rw [ih (start + l.length) t M logZ, onehotDot_append]
    ring

/-- Claim C2: the three-reduce sharded loss (gradient-stopped max-reduce of
local maxima, sum-reduce of summed exponentials of the shifted local logits,
sum-reduce of the negated one-hot log-probabilities) equals the naive
single-device numerically stable log-softmax cross-entropy over the
concatenation of all shards' logit slices, for every target inside the
vocabulary; the `psum` value is by construction the same on every shard. -/
theorem c2_sharded_loss_eq_naive (shards : List (List ℝ)) (t : ℕ)
    (hne : shards ≠ []) (hall : ∀ l ∈ shards, l ≠ [])
    (ht : t < (List.flatten shards).length) :
    shardedLoss shards t = naiveLoss (List.flatten shards) t := by
  have hM : globalMax shards = lmax (List.flatten shards) := globalMax_eq shards hne hall
  simp only [shardedLoss, naiveLoss]
  rw [lossPsum_eq, onehotDot_eq, if_pos (by omega), globalZ_eq, hM, Nat.sub_zero]

/-- Claim C2, witness: the protocol and the naive loss agree on two shards
holding logit slices `[1, 2]` and `[3, 4]` with target id 2. -/
theorem c2_sharded_loss_eq_naive_witness :
    (([[1, 2], [3, 4]] : List (List ℝ)) ≠ [])
      ∧ (∀ l ∈ ([[1, 2], [3, 4]] : List (List ℝ)), l ≠ [])
      ∧ 2 < (List.flatten ([[1, 2], [3, 4]] : List (List ℝ))).length
      ∧ shardedLoss [[1, 2], [3, 4]] 2 = naiveLoss (List.flatten [[1, 2], [3, 4]]) 2 :=
  ⟨by simp, by simp, by simp,
    c2_sharded_loss_eq_naive [[1, 2], [3, 4]] 2 (by simp) (by simp) (by simp)⟩

/-- Claim C4, code-bug exhibit: `ProjectionShard.loss` computes its shard
logits as `self.proj(x)` with no layer normalization, so at activations
`[0, 0]` (identity projection weights, zero projection bias, layer-norm
offset `[5, 0]`) the logits the loss protocol receives are `[0, 0]`, while
normalize-then-project — what the claim states, and what the inference path
`ProjectionShard.__call__` does — yields `[5, 0]`.  The claim's second
conjunct does hold: the partial one-hot for a target outside the shard's
vocabulary range (target 5 against owned range `[0, 2)`) is the zero
vector. -/
theorem c4_loss_skips_layernorm :
    projShardLogits ⟨[1, 1], [5, 0], [[1, 0], [0, 1]], [0, 0]⟩ [0, 0] = [0, 0]
      ∧ projCallLocal ⟨[1, 1], [5, 0], [[1, 0], [0, 1]], [0, 0]⟩ [0, 0] = [5, 0]
      ∧ ([(0 : ℝ), 0] ≠ [5, 0])
      ∧ gtOnehot 2 0 5 = [0, 0] := by
  refine ⟨?_, ?_, ?_, ?_⟩ <;>
    norm_num [projShardLogits, projCallLocal, layerNorm, linearFwd, smulv, vaddv,
      gtOnehot, onehotVec, List.range_succ, List.zipWith]

/-- Claim C1, code-bug exhibit: the source's mask step reads
`if mask is None: attention_logits += mask`, so a supplied causal mask is
never added.  With zero `q`/`k` weights (all attention logits 0) over a
2-position sequence and the causal mask of `CausalTransformerShard.eval`
supplied, the attention weights are uniform `1/2` — in particular position 0
attends to the future position 1 with weight `1/2`, not `0` as the claim
requires, and its softmax row sums to 1 over both positions rather than over
positions `≤ 0` only. -/
theorem c1_supplied_mask_not_added :
    attentionWeights
        ⟨[1], [0], [[0]], [[0]], [[0]], [[0]], [[0, 0, 0, 0]], [0, 0, 0, 0],
          [[0], [0], [0], [0]], [0]⟩
        1 1 [[0], [0]] (some (causalMask 2))
      = some [[[1 / 2, 1 / 2], [1 / 2, 1 / 2]]]
      ∧ ((1 : ℝ) / 2 ≠ 0) := by
  constructor
  · norm_num [attentionWeights, maskedAttentionLogits, attentionLogits, layerNorm,
      linearNB, linearFwd, headsOf, dotv, smulv, vaddv, softmaxRow, causalMask,
      List.range_succ, List.zipWith, Real.exp_zero]
  · norm_num

/-- Claim C5, counterexample to the claim as stated: the dense-branch
intermediate of the layer is computed from the layer-normalized input (the
source reassigns `x = self.ln(x)` before `dense_proj(x)`), not from the raw
block input.  With layer-norm offset `[5]` and input `[0]` the code's
intermediate is `[5, 5, 5, 5]` while the claimed from-raw-input intermediate
is `[0, 0, 0, 0]`. -/
theorem c5_ff_intermediate_counterexample :
    ffIntermediate
        ⟨[1], [5], [[0]], [[0]], [[0]], [[0]], [[1, 1, 1, 1]], [0, 0, 0, 0],
          [[0], [0], [0], [0]], [0]⟩ [0]
      = [5, 5, 5, 5]
      ∧ ffIntermediateFromRaw
          ⟨[1], [5], [[0]], [[0]], [[0]], [[0]], [[1, 1, 1, 1]], [0, 0, 0, 0],
            [[0], [0], [0], [0]], [0]⟩ [0]
        = [0, 0, 0, 0]
      ∧ ([(5 : ℝ), 5, 5, 5] ≠ [0, 0, 0, 0]) := by
  refine ⟨?_, ?_, ?_⟩ <;>
    norm_num [ffIntermediate, ffIntermediateFromRaw, layerNorm, linearFwd, smulv,
      vaddv, List.zipWith]

/-- Claim C5, amended: for every supplied mask the shard-local block output
at each position is the attention branch plus a feed-forward branch whose
expanded intermediate is computed from the *layer-normalized* input (the
same normalized activations the attention branch consumes), passed through
the gelu nonlinearity and projected back to full hidden width by the
shard-owned `dense_proj_o` matrix. -/
theorem c5_dense_branch_from_normalized (p : LayerParams) (hps dph dim : ℕ)
    (xs : List (List ℝ)) (m : List (List ℝ)) :
    transformerLayerLocal p hps dph dim xs (some m)
      = some ((List.range xs.length).map (fun t =>
          vaddv
            (linearNB p.wo dim
              (List.flatten ((List.range hps).map (fun h =>
                weightedSumVals dph
                  ((((attentionLogits p hps dph xs).map (fun rows =>
                      rows.map softmaxRow)).getD h []).getD t [])
                  (((xs.map (layerNorm p.lnScale p.lnOffset)).map
                      (fun x => headsOf hps dph (linearNB p.wv (hps * dph) x))).map
                    (fun vT => vT.getD h []))))))
            (linearFwd p.wDenseO p.bDenseO
              ((linearFwd p.wDense p.bDense
                  (layerNorm p.lnScale p.lnOffset (xs.getD t []))).map geluApprox)))) := rfl

end MeshTransformer
